import Mathlib

/-!
Verification of the call-stack-to-tree reconstruction in
`trulens_eval/react_components/record_viewer/src/utils.ts`.

The TypeScript source is shallowly embedded below.  Conventions:

* A JavaScript `Date` obtained from a parseable timestamp string is modelled
  by its numeric time value, an `Int` (JS time values may be negative for
  pre-epoch instants).  An absent (`undefined`) timestamp field is `none`.
  `new Date(undefined)` is an Invalid Date whose numeric value is `NaN`;
  every `<=` / `>=` comparison against `NaN` is `false` in JS, which the
  matching predicate below reproduces by returning `false` whenever the
  invocation timestamp being compared is absent.
* The record-level `perf` is required by the input contract and is read
  without optional chaining, so its fields are plain `Int`s; an invocation
  `perf` has optional fields (`start_time?` / `end_time?`).
* Mutation of the shared tree is modelled by returning the updated tree.
* A thrown JS `TypeError` is modelled as `Except.error`.
-/

/-- Innermost object of a stack cell: carries the class `name`. -/
structure ClsJSONRaw where
  name : String
deriving Repr, DecidableEq

/-- Wrapper object of a stack cell holding `cls`. -/
structure ObjJSONRaw where
  cls : ClsJSONRaw
deriving Repr, DecidableEq

/-- Wrapper object of a stack cell holding `obj`. -/
structure MethodJSONRaw where
  obj : ObjJSONRaw
deriving Repr, DecidableEq

/-- One cell (frame) of an invocation call stack. -/
structure StackJSONRaw where
  method : MethodJSONRaw
deriving Repr, DecidableEq

/-- Timing data of one invocation; both fields are optional
(absent field = `none`, mirroring `start_time?` / `end_time?`). -/
structure PerfJSONRaw where
  start_time : Option Int
  end_time : Option Int
deriving Repr, DecidableEq

/-- One invocation record (`CallJSONRaw`): its declared stack, timing, and
opaque payload (`args` / `rets`), passed through unchanged. -/
structure CallJSONRaw where
  stack : List StackJSONRaw
  perf : PerfJSONRaw
  args : String
  rets : String
deriving Repr, DecidableEq

/-- Timing data of the whole run.  The record-level `perf` is required by
the input contract and `createTreeFromCalls` dereferences it without
optional chaining, so the fields are not optional here. -/
structure RunPerfJSONRaw where
  start_time : Int
  end_time : Int
deriving Repr, DecidableEq

/-- Top-level record of one app run (`RecordJSONRaw`). -/
structure RecordJSONRaw where
  perf : RunPerfJSONRaw
  calls : List CallJSONRaw
deriving Repr, DecidableEq

/-- Node of the reconstructed tree (`StackTreeNode`):
`mk name startTime endTime raw children`.  The `children` component is
`none` when the field is absent (`undefined`) and `some cs` when it holds
an array. -/
inductive StackTreeNode : Type where
  | mk : String → Option Int → Option Int → Option CallJSONRaw →
      Option (List StackTreeNode) → StackTreeNode
deriving Repr

/-- Accessor for the `name` field of a tree node. -/
def StackTreeNode.name : StackTreeNode → String
  | .mk n _ _ _ _ => n

/-- Accessor for the `startTime` field of a tree node. -/
def StackTreeNode.startTime : StackTreeNode → Option Int
  | .mk _ s _ _ _ => s

/-- Accessor for the `endTime` field of a tree node. -/
def StackTreeNode.endTime : StackTreeNode → Option Int
  | .mk _ _ e _ _ => e

/-- Accessor for the `raw` field of a tree node. -/
def StackTreeNode.raw : StackTreeNode → Option CallJSONRaw
  | .mk _ _ _ r _ => r

/-- Accessor for the `children` field of a tree node. -/
def StackTreeNode.children : StackTreeNode → Option (List StackTreeNode)
  | .mk _ _ _ _ c => c

/-- Embedding of `getNameFromCell`: the name of the calling function in the
stack cell, `stackCell.method.obj.cls.name`. -/
def getNameFromCell (stackCell : StackJSONRaw) : String :=
  stackCell.method.obj.cls.name

/-- Result type of `getStartAndEndTimes`. -/
structure StartEnd where
  startTime : Option Int
  endTime : Option Int
deriving Repr, DecidableEq

/-- Embedding of `getStartAndEndTimes`: `perf?.start_time ?
new Date(perf.start_time) : undefined` — a present (truthy) timestamp
string parses to its time value, an absent one yields `undefined`. -/
def getStartAndEndTimes (perf : PerfJSONRaw) : StartEnd :=
  { startTime := perf.start_time, endTime := perf.end_time }

/-- Matching predicate used by the `tree.children.find` call in
`addCallToTree`:

`node.name === getNameFromCell(stackCell) &&
 (node.startTime ?? 0) <= new Date(call.perf.start_time) &&
 (node.endTime ?? Infinity) >= new Date(call.perf.end_time)`

When `call.perf.start_time` (resp. `end_time`) is absent, the
corresponding `new Date(...)` is `NaN` and the JS comparison is `false`.
An absent `node.startTime` is replaced by the numeric sentinel `0`, an
absent `node.endTime` by `Infinity` (which exceeds every finite time
value). -/
def nodeMatches (cellName : String) (perf : PerfJSONRaw)
    (node : StackTreeNode) : Bool :=
  node.name == cellName &&
    (match perf.start_time with
     | none => false
     | some s => decide (node.startTime.getD 0 ≤ s)) &&
    (match perf.end_time with
     | none => false
     | some e =>
       match node.endTime with
       | none => true
       | some t => decide (e ≤ t))

/-- Embedding of `tree.children.find(...)`: first matching element,
together with its index so that the in-place mutation of the found node
can be rendered functionally. -/
def findMatchingNode (p : StackTreeNode → Bool) :
    List StackTreeNode → Option (Nat × StackTreeNode)
  | [] => none
  | n :: ns =>
    if p n then some (0, n)
    else (findMatchingNode p ns).map (fun im => (im.1 + 1, im.2))

/-- Replace the `children` field of a node (the only field `addCallToTree`
ever writes on the node it is called with). -/
def withChildren : StackTreeNode → List StackTreeNode → StackTreeNode
  | .mk n s e r _, cs => .mk n s e r (some cs)

/-- Embedding of the body of `addCallToTree`, recursing over the
still-unprocessed suffix `frames = stack.drop index` of the invocation
stack.  The source steps an `index`; `frames = [f]` is exactly the source
leaf test `index === stack.length - 1`, and `frames = []` is the
out-of-range access `stack[index]` whose `getNameFromCell` dereferences
`undefined` and throws a `TypeError` — reachable exactly when the
invocation stack is empty.  The branches:

* leaf, match found: overwrite `startTime` / `endTime` / `raw` of the
  matched child in place;
* leaf, no match: push a new node with `children: undefined`;
* intermediate, match found: recurse into the matched child;
* intermediate, no match: push a placeholder `{children: [], name}` and
  recurse into it.

In every branch the source first runs
`if (!tree.children) tree.children = []`, so the result always carries a
present `children` array, modelled by `withChildren`. -/
def addCallFrames (tree : StackTreeNode) (call : CallJSONRaw) :
    List StackJSONRaw → Except String StackTreeNode
  | [] =>
    Except.error "TypeError: stack cell is undefined"
  | stackCell :: rest =>
    let cellName := getNameFromCell stackCell
    let children := tree.children.getD []
    match findMatchingNode (nodeMatches cellName call.perf) children with
    | some (i, c) =>
      match rest with
      | [] =>
        let se := getStartAndEndTimes call.perf
        Except.ok (withChildren tree (children.set i
          (StackTreeNode.mk c.name se.startTime se.endTime (some call) c.children)))
      | _ :: _ =>
        (addCallFrames c call rest).map
          (fun c2 => withChildren tree (children.set i c2))
    | none =>
      match rest with
      | [] =>
        let se := getStartAndEndTimes call.perf
        Except.ok (withChildren tree (children ++
          [StackTreeNode.mk cellName se.startTime se.endTime (some call) none]))
      | _ :: _ =>
        let newNode := StackTreeNode.mk cellName none none none (some [])
        (addCallFrames newNode call rest).map
          (fun c2 => withChildren tree (children ++ [c2]))

/-- Embedding of `addCallToTree(tree, call, stack, index)`. -/
def addCallToTree (tree : StackTreeNode) (call : CallJSONRaw)
    (stack : List StackJSONRaw) (index : Nat) : Except String StackTreeNode :=
  addCallFrames tree call (stack.drop index)

/-- Embedding of `createTreeFromCalls`: build the root node (named
`"App"`, carrying the record-level interval, `children: []`, no `raw`)
and fold every call of the record into it.  A thrown `TypeError`
propagates out of the loop. -/
def createTreeFromCalls (recordJSON : RecordJSONRaw) :
    Except String StackTreeNode :=
  let tree : StackTreeNode :=
    StackTreeNode.mk "App" (some recordJSON.perf.start_time)
      (some recordJSON.perf.end_time) none (some [])
  recordJSON.calls.foldlM
    (fun t call => addCallToTree t call call.stack 0) tree

/-- Subtree of `t` at a path of child indices; the node at path `p` sits
at depth `p.length`, the root at depth `0`. -/
def nodeAt : StackTreeNode → List Nat → Option StackTreeNode
  | t, [] => some t
  | t, i :: p =>
    match t.children with
    | none => none
    | some cs =>
      match cs[i]? with
      | none => none
      | some c => nodeAt c p

mutual

/-- Number of nodes of a tree. -/
def countNodes : StackTreeNode → Nat
  | .mk _ _ _ _ none => 1
  | .mk _ _ _ _ (some cs) => 1 + countChildren cs

/-- Number of nodes of a forest. -/
def countChildren : List StackTreeNode → Nat
  | [] => 0
  | c :: cs => countNodes c + countChildren cs

end

/-- Containment predicate exactly as the specification words it: the child
matches iff the names agree, an absent child `startTime` matches
unconditionally (else `c.startTime <= invocation.startTime`), and an
absent child `endTime` matches unconditionally (else
`c.endTime >= invocation.endTime`).  Written from the spec text, to be
compared against the source predicate `nodeMatches`. -/
def specContainmentMatches (cellName : String) (invStart invEnd : Int)
    (node : StackTreeNode) : Bool :=
  node.name == cellName &&
    (match node.startTime with
     | none => true
     | some s => decide (s ≤ invStart)) &&
    (match node.endTime with
     | none => true
     | some t => decide (invEnd ≤ t))

/-- Stack cell whose nested identity path carries the given name. -/
def mkCell (s : String) : StackJSONRaw := ⟨⟨⟨⟨s⟩⟩⟩⟩

/-- Unclosed placeholder node named `"A"` (no timing). -/
def c1Placeholder : StackTreeNode := StackTreeNode.mk "A" none none none (some [])

/-- Invocation with a single frame `"A"` whose interval lies before the
epoch (negative JS time values). -/
def c1Call : CallJSONRaw := ⟨[mkCell "A"], ⟨some (-5), some (-1)⟩, "", ""⟩

/-- Tree whose only child is the placeholder `c1Placeholder`. -/
def c1Tree : StackTreeNode := StackTreeNode.mk "Root" none none none (some [c1Placeholder])

/-- Closed node named `"B"`. -/
def c1wNodeB : StackTreeNode := StackTreeNode.mk "B" (some 0) (some 10) none none

/-- Closed node named `"A"` with interval `[1, 9]`. -/
def c1wNodeA : StackTreeNode := StackTreeNode.mk "A" (some 1) (some 9) none none

/-- Invocation timing `[2, 8]`. -/
def c1wPerf : PerfJSONRaw := ⟨some 2, some 8⟩

/-- Invocation with single frame `"A"` and interval `[3, 7]`. -/
def c2wCall : CallJSONRaw := ⟨[mkCell "A"], ⟨some 3, some 7⟩, "x", "y"⟩

/-- Matchable child named `"A"` with interval `[0, 10]`. -/
def c2wMatch : StackTreeNode := StackTreeNode.mk "A" (some 0) (some 10) none (some [])

/-- Tree with the single child `c2wMatch`. -/
def c2wTree : StackTreeNode := StackTreeNode.mk "Root" none none none (some [c2wMatch])

/-- Tree whose only child is named `"B"` (no match for frame `"A"`). -/
def c2wTreeNoMatch : StackTreeNode := StackTreeNode.mk "Root" none none none
  (some [StackTreeNode.mk "B" (some 0) (some 10) none none])

/-- Run with two nested invocations (`[A]` and `[A, B]`). -/
def c3run : RecordJSONRaw := ⟨⟨0, 100⟩,
  [⟨[mkCell "A"], ⟨some 0, some 10⟩, "", ""⟩,
   ⟨[mkCell "A", mkCell "B"], ⟨some 2, some 8⟩, "", ""⟩]⟩

/-- Tree that `createTreeFromCalls` builds from `c3run`. -/
def c3tree : StackTreeNode := StackTreeNode.mk "App" (some 0) (some 100) none (some
  [StackTreeNode.mk "A" (some 0) (some 10)
    (some ⟨[mkCell "A"], ⟨some 0, some 10⟩, "", ""⟩) (some
    [StackTreeNode.mk "B" (some 2) (some 8)
      (some ⟨[mkCell "A", mkCell "B"], ⟨some 2, some 8⟩, "", ""⟩) none])])

/-- Run containing one invocation whose stack is empty. -/
def c4run : RecordJSONRaw := ⟨⟨0, 100⟩, [⟨[], ⟨some 1, some 2⟩, "", ""⟩]⟩

/-- The run `c4run` with the empty-stack invocation removed. -/
def c4runWithout : RecordJSONRaw := ⟨⟨0, 100⟩, []⟩

/-- Invocation with a stack of length two. -/
def c5call : CallJSONRaw := ⟨[mkCell "A", mkCell "B"], ⟨some 2, some 8⟩, "", ""⟩

/-- Fresh root node with an empty children array. -/
def c5tree : StackTreeNode := StackTreeNode.mk "App" (some 0) (some 100) none (some [])

/-- Invocation whose `start_time` field is absent. -/
def c7call : CallJSONRaw := ⟨[mkCell "A"], ⟨none, some 8⟩, "", ""⟩

/-- Fresh root node. -/
def c7tree : StackTreeNode := StackTreeNode.mk "App" (some 0) (some 9) none (some [])

/-- Run with no calls at all. -/
def c8run : RecordJSONRaw := ⟨⟨3, 9⟩, []⟩

/-- Node with a present, empty children array. -/
def c8tree : StackTreeNode := StackTreeNode.mk "Root" none none none (some [])

/-- Tree produced by inserting `c2wCall` into `c2wTree`. -/
def c10res : StackTreeNode := StackTreeNode.mk "Root" none none none
  (some [StackTreeNode.mk "A" (some 3) (some 7) (some c2wCall) (some [])])

@[simp] theorem StackTreeNode.name_mk (n s e r c) :
    (StackTreeNode.mk n s e r c).name = n := rfl

@[simp] theorem StackTreeNode.startTime_mk (n s e r c) :
    (StackTreeNode.mk n s e r c).startTime = s := rfl

@[simp] theorem StackTreeNode.endTime_mk (n s e r c) :
    (StackTreeNode.mk n s e r c).endTime = e := rfl

@[simp] theorem StackTreeNode.raw_mk (n s e r c) :
    (StackTreeNode.mk n s e r c).raw = r := rfl

@[simp] theorem StackTreeNode.children_mk (n s e r c) :
    (StackTreeNode.mk n s e r c).children = c := rfl

@[simp] theorem withChildren_mk (n s e r c cs) :
    withChildren (StackTreeNode.mk n s e r c) cs =
      StackTreeNode.mk n s e r (some cs) := rfl

@[simp] theorem name_withChildren (t cs) :
    (withChildren t cs).name = t.name := by cases t; rfl

@[simp] theorem startTime_withChildren (t cs) :
    (withChildren t cs).startTime = t.startTime := by cases t; rfl

@[simp] theorem endTime_withChildren (t cs) :
    (withChildren t cs).endTime = t.endTime := by cases t; rfl

@[simp] theorem raw_withChildren (t cs) :
    (withChildren t cs).raw = t.raw := by cases t; rfl

@[simp] theorem children_withChildren (t cs) :
    (withChildren t cs).children = some cs := by cases t; rfl

@[simp] theorem nodeAt_nil (t : StackTreeNode) : nodeAt t [] = some t := rfl

theorem nodeAt_cons (t : StackTreeNode) (i : Nat) (p : List Nat) :
    nodeAt t (i :: p) =
      match t.children with
      | none => none
      | some cs =>
        match cs[i]? with
        | none => none
        | some c => nodeAt c p := rfl

theorem exceptMap_eq_ok {α β : Type} (f : α → β) (x : Except String α) (b : β) :
    x.map f = Except.ok b ↔ ∃ a, x = Except.ok a ∧ f a = b := by
  cases x <;> simp [Except.map]

theorem findMatchingNode_eq_some (p : StackTreeNode → Bool) :
    ∀ (l : List StackTreeNode) (i : Nat) (c : StackTreeNode),
      findMatchingNode p l = some (i, c) →
      l[i]? = some c ∧ p c = true ∧
        ∀ j d, j < i → l[j]? = some d → p d = false := by
  intro l
  induction l with
  | nil => intro i c h; simp [findMatchingNode] at h
  | cons n ns ih =>
    intro i c h
    by_cases hp : p n
    · simp [findMatchingNode, hp] at h
      obtain ⟨hi, hc⟩ := h
      subst i; subst c
      exact ⟨by simp, hp, by intro j d hj; omega⟩
    · simp [findMatchingNode, hp] at h
      obtain ⟨i', hfind, hi⟩ := h
      obtain ⟨hget, hpc, hfirst⟩ := ih i' c hfind
      subst hi
      refine ⟨by simpa using hget, hpc, ?_⟩
      intro j d hj hget'
      cases j with
      | zero => simp at hget'; subst hget'; simpa using hp
      | succ j' =>
        apply hfirst j' d (by omega)
        simpa using hget'

theorem findMatchingNode_eq_none (p : StackTreeNode → Bool) :
    ∀ (l : List StackTreeNode), findMatchingNode p l = none →
      ∀ (j : Nat) (d : StackTreeNode), l[j]? = some d → p d = false := by
  intro l
  induction l with
  | nil => intro _ j d h; simp at h
  | cons n ns ih =>
    intro h j d hget
    by_cases hp : p n
    · simp [findMatchingNode, hp] at h
    · simp [findMatchingNode, hp] at h
      cases j with
      | zero => simp at hget; subst hget; simpa using hp
      | succ j' => exact ih h j' d (by simpa using hget)

theorem addCallFrames_fields (tree : StackTreeNode) (call : CallJSONRaw)
    (frames : List StackJSONRaw) (t' : StackTreeNode)
    (h : addCallFrames tree call frames = Except.ok t') :
    t'.name = tree.name ∧ t'.startTime = tree.startTime ∧
      t'.endTime = tree.endTime ∧ t'.raw = tree.raw ∧
      ∃ cs', t'.children = some cs' := by
  cases frames with
  | nil => simp [addCallFrames] at h
  | cons stackCell rest =>
    rw [addCallFrames.eq_def] at h
    simp only [] at h
    split at h
    · -- matching node found
      split at h
      · -- leaf
        simp only [Except.ok.injEq] at h
        subst h
        simp
      · -- intermediate
        rw [exceptMap_eq_ok] at h
        obtain ⟨c2, _, h2⟩ := h
        subst h2
        simp
    · -- no matching node
      split at h
      · simp only [Except.ok.injEq] at h
        subst h
        simp
      · rw [exceptMap_eq_ok] at h
        obtain ⟨c2, _, h2⟩ := h
        subst h2
        simp

theorem addCallFrames_leafMatch (tree : StackTreeNode) (call : CallJSONRaw)
    (stackCell : StackJSONRaw) (i : Nat) (c : StackTreeNode)
    (hfm : findMatchingNode (nodeMatches (getNameFromCell stackCell) call.perf)
        (tree.children.getD []) = some (i, c)) :
    addCallFrames tree call [stackCell] =
      Except.ok (withChildren tree ((tree.children.getD []).set i
        (StackTreeNode.mk c.name call.perf.start_time call.perf.end_time
          (some call) c.children))) := by
  rw [addCallFrames.eq_def]
  simp only [hfm, getStartAndEndTimes]

theorem addCallFrames_leafNew (tree : StackTreeNode) (call : CallJSONRaw)
    (stackCell : StackJSONRaw)
    (hfm : findMatchingNode (nodeMatches (getNameFromCell stackCell) call.perf)
        (tree.children.getD []) = none) :
    addCallFrames tree call [stackCell] =
      Except.ok (withChildren tree ((tree.children.getD []) ++
        [StackTreeNode.mk (getNameFromCell stackCell) call.perf.start_time
          call.perf.end_time (some call) none])) := by
  rw [addCallFrames.eq_def]
  simp only [hfm, getStartAndEndTimes]

theorem addCallFrames_descendMatch (tree : StackTreeNode) (call : CallJSONRaw)
    (stackCell r1 : StackJSONRaw) (rs : List StackJSONRaw) (i : Nat)
    (c : StackTreeNode)
    (hfm : findMatchingNode (nodeMatches (getNameFromCell stackCell) call.perf)
        (tree.children.getD []) = some (i, c)) :
    addCallFrames tree call (stackCell :: r1 :: rs) =
      (addCallFrames c call (r1 :: rs)).map
        (fun c2 => withChildren tree ((tree.children.getD []).set i c2)) := by
  rw [addCallFrames.eq_def]
  simp only [hfm]

theorem addCallFrames_descendNew (tree : StackTreeNode) (call : CallJSONRaw)
    (stackCell r1 : StackJSONRaw) (rs : List StackJSONRaw)
    (hfm : findMatchingNode (nodeMatches (getNameFromCell stackCell) call.perf)
        (tree.children.getD []) = none) :
    addCallFrames tree call (stackCell :: r1 :: rs) =
      (addCallFrames (StackTreeNode.mk (getNameFromCell stackCell) none none none
          (some [])) call (r1 :: rs)).map
        (fun c2 => withChildren tree ((tree.children.getD []) ++ [c2])) := by
  rw [addCallFrames.eq_def]
  simp only [hfm]

theorem lt_length_of_getElem?_some {α : Type} {l : List α} {i : Nat} {c : α}
    (h : l[i]? = some c) : i < l.length :=
  (List.getElem?_eq_some.mp h).1

theorem nodeAt_cons_of {t : StackTreeNode} {cs : List StackTreeNode} {i : Nat}
    {c : StackTreeNode} (p : List Nat) (hc : t.children = some cs)
    (h : cs[i]? = some c) : nodeAt t (i :: p) = nodeAt c p := by
  simp only [nodeAt_cons, hc, h]

theorem nodeMatches_name {cellName : String} {perf : PerfJSONRaw}
    {node : StackTreeNode} (h : nodeMatches cellName perf node = true) :
    node.name = cellName := by
  simp only [nodeMatches, Bool.and_eq_true, beq_iff_eq] at h
  exact h.1.1

theorem addCallFrames_resolves (call : CallJSONRaw) :
    ∀ (frames : List StackJSONRaw) (tree : StackTreeNode),
      frames ≠ [] →
      ∃ t', addCallFrames tree call frames = Except.ok t' ∧
        ∃ (p : List Nat) (n : StackTreeNode) (lastCell : StackJSONRaw),
          frames.getLast? = some lastCell ∧
          p.length = frames.length ∧ nodeAt t' p = some n ∧
          n.name = getNameFromCell lastCell ∧
          n.startTime = call.perf.start_time ∧
          n.endTime = call.perf.end_time ∧ n.raw = some call := by
  intro frames
  induction frames with
  | nil => intro tree h; exact absurd rfl h
  | cons stackCell rest ih =>
    intro tree _
    cases rest with
    | nil =>
      cases hfm : findMatchingNode
          (nodeMatches (getNameFromCell stackCell) call.perf)
          (tree.children.getD []) with
      | some ic =>
        obtain ⟨i, c⟩ := ic
        obtain ⟨hget, hmatch, -⟩ := findMatchingNode_eq_some _ _ _ _ hfm
        refine ⟨_, addCallFrames_leafMatch tree call stackCell i c hfm, [i],
          StackTreeNode.mk c.name call.perf.start_time call.perf.end_time
            (some call) c.children,
          stackCell, rfl, rfl, ?_, by simp [nodeMatches_name hmatch],
          by simp, by simp, by simp⟩
        rw [nodeAt_cons_of [] (children_withChildren _ _)
          (List.getElem?_set_self (lt_length_of_getElem?_some hget))]
        rfl
      | none =>
        refine ⟨_, addCallFrames_leafNew tree call stackCell hfm,
          [(tree.children.getD []).length],
          StackTreeNode.mk (getNameFromCell stackCell) call.perf.start_time
            call.perf.end_time (some call) none,
          stackCell, rfl, rfl, ?_, by simp, by simp, by simp, by simp⟩
        rw [nodeAt_cons_of [] (children_withChildren _ _)
          (List.getElem?_concat_length _ _)]
        rfl
    | cons r1 rs =>
      cases hfm : findMatchingNode
          (nodeMatches (getNameFromCell stackCell) call.perf)
          (tree.children.getD []) with
      | some ic =>
        obtain ⟨i, c⟩ := ic
        obtain ⟨hget, -, -⟩ := findMatchingNode_eq_some _ _ _ _ hfm
        obtain ⟨t'c, hok, p', n, lastCell, hlast, hplen, hat, hname, hst, het, hraw⟩ :=
          ih c (by simp)
        refine ⟨withChildren tree ((tree.children.getD []).set i t'c), ?_,
          i :: p', n, lastCell, by simpa using hlast,
          by simpa using hplen, ?_, hname, hst, het, hraw⟩
        · rw [addCallFrames_descendMatch tree call stackCell r1 rs i c hfm, hok]
          rfl
        · rw [nodeAt_cons_of p' (children_withChildren _ _)
            (List.getElem?_set_self (lt_length_of_getElem?_some hget))]
          exact hat
      | none =>
        obtain ⟨t'c, hok, p', n, lastCell, hlast, hplen, hat, hname, hst, het, hraw⟩ :=
          ih (StackTreeNode.mk (getNameFromCell stackCell) none none none (some []))
            (by simp)
        refine ⟨withChildren tree ((tree.children.getD []) ++ [t'c]), ?_,
          (tree.children.getD []).length :: p', n, lastCell,
          by simpa using hlast, by simpa using hplen, ?_, hname, hst, het, hraw⟩
        · rw [addCallFrames_descendNew tree call stackCell r1 rs hfm, hok]
          rfl
        · rw [nodeAt_cons_of p' (children_withChildren _ _)
            (List.getElem?_concat_length _ _)]
          exact hat

theorem nodeAt_cons_congr (a b : StackTreeNode) (h : a.children = b.children)
    (j : Nat) (q : List Nat) : nodeAt a (j :: q) = nodeAt b (j :: q) := by
  rw [nodeAt_cons, nodeAt_cons, h]

theorem addCallFrames_monotone (call : CallJSONRaw) :
    ∀ (frames : List StackJSONRaw) (tree t' : StackTreeNode),
      addCallFrames tree call frames = Except.ok t' →
      ∃ p₀ : List Nat,
        ∀ (p : List Nat) (m : StackTreeNode), nodeAt tree p = some m →
          ∃ m', nodeAt t' p = some m' ∧ m'.name = m.name ∧
            (p ≠ p₀ → m'.startTime = m.startTime ∧ m'.endTime = m.endTime ∧
              m'.raw = m.raw) := by
  intro frames
  induction frames with
  | nil => intro tree t' h; simp [addCallFrames] at h
  | cons stackCell rest ih =>
    intro tree t' h
    cases hfm : findMatchingNode
        (nodeMatches (getNameFromCell stackCell) call.perf)
        (tree.children.getD []) with
    | some ic =>
      obtain ⟨i, c⟩ := ic
      obtain ⟨hget, -, -⟩ := findMatchingNode_eq_some _ _ _ _ hfm
      cases rest with
      | nil =>
        rw [addCallFrames_leafMatch tree call stackCell i c hfm,
          Except.ok.injEq] at h
        subst h
        refine ⟨[i], ?_⟩
        intro p m hm
        match p, hm with
        | [], hm =>
          rw [nodeAt_nil, Option.some.injEq] at hm
          subst hm
          exact ⟨_, nodeAt_nil _, by simp, fun _ => by simp⟩
        | j :: q, hm =>
          rw [nodeAt_cons] at hm
          split at hm
          · exact absurd hm (by simp)
          · rename_i cs hcs
            have hcs' : tree.children.getD [] = cs := by simp [hcs]
            rw [hcs'] at hget ⊢
            split at hm
            · exact absurd hm (by simp)
            · rename_i cj hj
              by_cases hij : j = i
              · subst hij
                rw [hj, Option.some.injEq] at hget
                subst hget
                match q, hm with
                | [], hm =>
                  rw [nodeAt_nil, Option.some.injEq] at hm
                  subst hm
                  refine ⟨StackTreeNode.mk cj.name call.perf.start_time
                    call.perf.end_time (some call) cj.children, ?_,
                    by simp, fun hne => absurd rfl hne⟩
                  rw [nodeAt_cons_of [] (children_withChildren _ _)
                    (List.getElem?_set_self (lt_length_of_getElem?_some hj))]
                  rfl
                | j' :: q', hm =>
                  refine ⟨m, ?_, rfl, fun _ => ⟨rfl, rfl, rfl⟩⟩
                  rw [nodeAt_cons_of (j' :: q') (children_withChildren _ _)
                    (List.getElem?_set_self (lt_length_of_getElem?_some hj))]
                  rw [nodeAt_cons_congr _ cj (by simp) j' q']
                  exact hm
              · refine ⟨m, ?_, rfl, fun _ => ⟨rfl, rfl, rfl⟩⟩
                rw [nodeAt_cons_of q (children_withChildren _ _)
                  (by rw [List.getElem?_set_ne (fun he => hij he.symm)]
                      exact hj)]
                exact hm
      | cons r1 rs =>
        rw [addCallFrames_descendMatch tree call stackCell r1 rs i c hfm,
          exceptMap_eq_ok] at h
        obtain ⟨c2, hok, ht'⟩ := h
        subst ht'
        obtain ⟨p₀', hpres⟩ := ih c c2 hok
        refine ⟨i :: p₀', ?_⟩
        intro p m hm
        match p, hm with
        | [], hm =>
          rw [nodeAt_nil, Option.some.injEq] at hm
          subst hm
          exact ⟨_, nodeAt_nil _, by simp, fun _ => by simp⟩
        | j :: q, hm =>
          rw [nodeAt_cons] at hm
          split at hm
          · exact absurd hm (by simp)
          · rename_i cs hcs
            have hcs' : tree.children.getD [] = cs := by simp [hcs]
            rw [hcs'] at hget ⊢
            split at hm
            · exact absurd hm (by simp)
            · rename_i cj hj
              by_cases hij : j = i
              · subst hij
                rw [hj, Option.some.injEq] at hget
                subst hget
                obtain ⟨m', hm', hname, hfields⟩ := hpres q m hm
                refine ⟨m', ?_, hname,
                  fun hne => hfields (fun he => hne (by rw [he]))⟩
                rw [nodeAt_cons_of q (children_withChildren _ _)
                  (List.getElem?_set_self (lt_length_of_getElem?_some hj))]
                exact hm'
              · refine ⟨m, ?_, rfl, fun _ => ⟨rfl, rfl, rfl⟩⟩
                rw [nodeAt_cons_of q (children_withChildren _ _)
                  (by rw [List.getElem?_set_ne (fun he => hij he.symm)]
                      exact hj)]
                exact hm
    | none =>
      have hnew : ∀ (cs' : List StackTreeNode),
          (∀ (p : List Nat) (m : StackTreeNode), nodeAt tree p = some m →
            ∃ m', nodeAt (withChildren tree ((tree.children.getD []) ++ cs')) p
                = some m' ∧ m'.name = m.name ∧
              m'.startTime = m.startTime ∧ m'.endTime = m.endTime ∧
              m'.raw = m.raw) := by
        intro cs' p m hm
        match p, hm with
        | [], hm =>
          rw [nodeAt_nil, Option.some.injEq] at hm
          subst hm
          exact ⟨_, nodeAt_nil _, by simp, by simp, by simp, by simp⟩
        | j :: q, hm =>
          rw [nodeAt_cons] at hm
          split at hm
          · exact absurd hm (by simp)
          · rename_i cs hcs
            have hcs' : tree.children.getD [] = cs := by simp [hcs]
            rw [hcs']
            split at hm
            · exact absurd hm (by simp)
            · rename_i cj hj
              refine ⟨m, ?_, rfl, rfl, rfl, rfl⟩
              rw [nodeAt_cons_of q (children_withChildren _ _)
                (by rw [List.getElem?_append_left
                    (lt_length_of_getElem?_some hj)]
                    exact hj)]
              exact hm
      cases rest with
      | nil =>
        rw [addCallFrames_leafNew tree call stackCell hfm,
          Except.ok.injEq] at h
        subst h
        refine ⟨[(tree.children.getD []).length], ?_⟩
        intro p m hm
        obtain ⟨m', h1, h2, h3, h4, h5⟩ := hnew _ p m hm
        exact ⟨m', h1, h2, fun _ => ⟨h3, h4, h5⟩⟩
      | cons r1 rs =>
        rw [addCallFrames_descendNew tree call stackCell r1 rs hfm,
          exceptMap_eq_ok] at h
        obtain ⟨c2, hok, ht'⟩ := h
        subst ht'
        refine ⟨[(tree.children.getD []).length], ?_⟩
        intro p m hm
        obtain ⟨m', h1, h2, h3, h4, h5⟩ := hnew _ p m hm
        exact ⟨m', h1, h2, fun _ => ⟨h3, h4, h5⟩⟩

@[simp] theorem countNodes_mk_none (n s e r) :
    countNodes (StackTreeNode.mk n s e r none) = 1 := by
  rw [countNodes]

@[simp] theorem countNodes_mk_some (n s e r cs) :
    countNodes (StackTreeNode.mk n s e r (some cs)) = 1 + countChildren cs := by
  rw [countNodes]

@[simp] theorem countChildren_nil : countChildren [] = 0 := by rw [countChildren]

@[simp] theorem countChildren_cons (c cs) :
    countChildren (c :: cs) = countNodes c + countChildren cs := by
  rw [countChildren]

theorem countNodes_withChildren (t : StackTreeNode) (cs : List StackTreeNode) :
    countNodes (withChildren t cs) = 1 + countChildren cs := by
  cases t with
  | mk n s e r c => simp [withChildren]

theorem countNodes_eq (t : StackTreeNode) :
    countNodes t = 1 + countChildren (t.children.getD []) := by
  cases t with
  | mk n s e r c => cases c <;> simp

theorem countChildren_append (l1 l2 : List StackTreeNode) :
    countChildren (l1 ++ l2) = countChildren l1 + countChildren l2 := by
  induction l1 with
  | nil => simp
  | cons c cs ih => simp [ih]; omega

theorem countChildren_set (l : List StackTreeNode) :
    ∀ (i : Nat) (c x : StackTreeNode), l[i]? = some c →
      countChildren (l.set i x) + countNodes c =
        countChildren l + countNodes x := by
  induction l with
  | nil => intro i c x h; simp at h
  | cons hd tl ih =>
    intro i c x h
    cases i with
    | zero =>
      simp at h
      subst h
      simp [List.set]
      omega
    | succ i' =>
      simp at h
      have := ih i' c x h
      simp [List.set]
      omega

theorem addCallFrames_count (call : CallJSONRaw) :
    ∀ (frames : List StackJSONRaw) (tree t' : StackTreeNode),
      addCallFrames tree call frames = Except.ok t' →
      countNodes t' ≤ countNodes tree + frames.length := by
  intro frames
  induction frames with
  | nil => intro tree t' h; simp [addCallFrames] at h
  | cons stackCell rest ih =>
    intro tree t' h
    cases hfm : findMatchingNode
        (nodeMatches (getNameFromCell stackCell) call.perf)
        (tree.children.getD []) with
    | some ic =>
      obtain ⟨i, c⟩ := ic
      obtain ⟨hget, -, -⟩ := findMatchingNode_eq_some _ _ _ _ hfm
      cases rest with
      | nil =>
        rw [addCallFrames_leafMatch tree call stackCell i c hfm,
          Except.ok.injEq] at h
        subst h
        rw [countNodes_withChildren, countNodes_eq tree]
        have hset := countChildren_set _ i c
          (StackTreeNode.mk c.name call.perf.start_time call.perf.end_time
            (some call) c.children) hget
        have hcc : countNodes (StackTreeNode.mk c.name call.perf.start_time
            call.perf.end_time (some call) c.children) = countNodes c := by
          rw [countNodes_eq, countNodes_eq c]
          simp
        simp only [List.length_cons]
        omega
      | cons r1 rs =>
        rw [addCallFrames_descendMatch tree call stackCell r1 rs i c hfm,
          exceptMap_eq_ok] at h
        obtain ⟨c2, hok, ht'⟩ := h
        subst ht'
        have hc2 := ih c c2 hok
        have hset := countChildren_set _ i c c2 hget
        rw [countNodes_withChildren, countNodes_eq tree]
        simp only [List.length_cons] at *
        omega
    | none =>
      cases rest with
      | nil =>
        rw [addCallFrames_leafNew tree call stackCell hfm,
          Except.ok.injEq] at h
        subst h
        rw [countNodes_withChildren, countNodes_eq tree, countChildren_append]
        simp
        omega
      | cons r1 rs =>
        rw [addCallFrames_descendNew tree call stackCell r1 rs hfm,
          exceptMap_eq_ok] at h
        obtain ⟨c2, hok, ht'⟩ := h
        subst ht'
        have hc2 := ih _ c2 hok
        rw [countNodes_withChildren, countNodes_eq tree, countChildren_append]
        simp only [countNodes_mk_some, countChildren_nil, List.length_cons,
          countChildren_cons] at *
        omega

theorem exceptBind_eq_ok {α β : Type} (x : Except String α)
    (f : α → Except String β) (b : β) (h : (x >>= f) = Except.ok b) :
    ∃ a, x = Except.ok a ∧ f a = Except.ok b := by
  cases x with
  | error e => simp [Bind.bind, Except.bind] at h
  | ok a => exact ⟨a, rfl, by simpa [Bind.bind, Except.bind] using h⟩

theorem foldl_calls_fields (calls : List CallJSONRaw) :
    ∀ (t t' : StackTreeNode),
      calls.foldlM (fun t call => addCallToTree t call call.stack 0) t
          = Except.ok t' →
      t'.name = t.name ∧ t'.startTime = t.startTime ∧
        t'.endTime = t.endTime ∧ t'.raw = t.raw := by
  induction calls with
  | nil =>
    intro t t' h
    simp only [List.foldlM_nil, pure, Except.pure, Except.ok.injEq] at h
    subst h
    exact ⟨rfl, rfl, rfl, rfl⟩
  | cons call calls ih =>
    intro t t' h
    rw [List.foldlM_cons] at h
    obtain ⟨t1, h1, h2⟩ := exceptBind_eq_ok _ _ _ h
    obtain ⟨n1, s1, e1, r1, -⟩ :=
      addCallFrames_fields t call (call.stack.drop 0) t1 h1
    obtain ⟨n2, s2, e2, r2⟩ := ih t1 t' h2
    exact ⟨n2.trans n1, s2.trans s1, e2.trans e1, r2.trans r1⟩

theorem foldl_calls_ok (calls : List CallJSONRaw)
    (hne : ∀ c ∈ calls, c.stack ≠ []) :
    ∀ (t : StackTreeNode),
      ∃ t', calls.foldlM (fun t call => addCallToTree t call call.stack 0) t
          = Except.ok t' := by
  induction calls with
  | nil => intro t; exact ⟨t, by simp only [List.foldlM_nil]; rfl⟩
  | cons call calls ih =>
    intro t
    have hstack : call.stack ≠ [] := hne call (by simp)
    obtain ⟨t1, h1, -⟩ :=
      addCallFrames_resolves call call.stack t hstack
    obtain ⟨t', h2⟩ := ih (fun c hc => hne c (by simp [hc])) t1
    refine ⟨t', ?_⟩
    rw [List.foldlM_cons]
    rw [show addCallToTree t call call.stack 0 = Except.ok t1 from by
      simpa [addCallToTree] using h1]
    simpa using h2

theorem foldl_calls_error (call : CallJSONRaw)
    (post : List CallJSONRaw) (hstack : call.stack = []) :
    ∀ (pre : List CallJSONRaw), (∀ c ∈ pre, c.stack ≠ []) →
    ∀ t, (pre ++ call :: post).foldlM
        (fun t call => addCallToTree t call call.stack 0) t =
      Except.error
        "TypeError: stack cell is undefined" := by
  intro pre
  induction pre with
  | nil =>
    intro _ t
    rw [List.nil_append, List.foldlM_cons]
    rw [show addCallToTree t call call.stack 0 = Except.error
        "TypeError: stack cell is undefined" from by
      simp [addCallToTree, hstack, addCallFrames]]
    simp [Bind.bind, Except.bind]
  | cons c0 pre ih =>
    intro hpre t
    rw [List.cons_append, List.foldlM_cons]
    have h0 : c0.stack ≠ [] := hpre c0 (by simp)
    obtain ⟨t1, h1, -⟩ := addCallFrames_resolves c0 c0.stack t h0
    rw [show addCallToTree t c0 c0.stack 0 = Except.ok t1 from by
      simpa [addCallToTree] using h1]
    simpa [Bind.bind, Except.bind] using
      ih (fun c hc => hpre c (by simp [hc])) t1

theorem nodeMatches_iff (cellName : String) (perf : PerfJSONRaw)
    (node : StackTreeNode) :
    nodeMatches cellName perf node = true ↔
      (node.name = cellName ∧ ∃ s e, perf.start_time = some s ∧
        perf.end_time = some e ∧ node.startTime.getD 0 ≤ s ∧
        (∀ t, node.endTime = some t → e ≤ t)) := by
  simp only [nodeMatches, Bool.and_eq_true, beq_iff_eq]
  constructor
  · rintro ⟨⟨hname, hs⟩, he⟩
    refine ⟨hname, ?_⟩
    cases hst : perf.start_time with
    | none => rw [hst] at hs; simp at hs
    | some s =>
      rw [hst] at hs
      simp only [decide_eq_true_eq] at hs
      cases het : perf.end_time with
      | none => rw [het] at he; simp at he
      | some e =>
        rw [het] at he
        refine ⟨s, e, rfl, rfl, hs, ?_⟩
        intro t ht
        rw [ht] at he
        simpa using he
  · rintro ⟨hname, s, e, hst, het, hs, he⟩
    rw [hst, het]
    refine ⟨⟨hname, by simpa using hs⟩, ?_⟩
    cases ht : node.endTime with
    | none => rfl
    | some t => simpa using he t ht

theorem drop_eq_singleton {stack : List StackJSONRaw} {index : Nat}
    {stackCell : StackJSONRaw} (hlast : index + 1 = stack.length)
    (hcell : stack[index]? = some stackCell) :
    stack.drop index = [stackCell] := by
  have hlt : index < stack.length := by omega
  rw [List.drop_eq_getElem_cons hlt]
  have : stack[index] = stackCell := by
    have := List.getElem?_eq_getElem hlt
    rw [this] at hcell
    exact Option.some.injEq _ _ ▸ hcell.symm ▸ rfl
  rw [this, show index + 1 = stack.length from hlast, List.drop_length]

/-- C1, counterexample.  The claim states that a child with an absent
`startTime` always satisfies the matching predicate (name agreeing and
`endTime` absent).  The source replaces an absent `node.startTime` by the
sentinel `0`, so an invocation whose interval lies before the JS epoch
(negative time value, e.g. a pre-1970 timestamp string) fails the
comparison `0 <= invocation.startTime`: the placeholder `c1Placeholder`
satisfies the spec predicate but not the source predicate, and processing
the invocation appends a second sibling instead of closing the
placeholder. -/
theorem c1_counterexample :
    specContainmentMatches "A" (-5) (-1) c1Placeholder = true ∧
    nodeMatches "A" c1Call.perf c1Placeholder = false ∧
    addCallToTree c1Tree c1Call [mkCell "A"] 0 =
      Except.ok (StackTreeNode.mk "Root" none none none (some [c1Placeholder,
        StackTreeNode.mk "A" (some (-5)) (some (-1)) (some c1Call) none])) :=
  ⟨rfl, rfl, rfl⟩

/-- C1, amended.  The child selected by the search of `addCallToTree` is
the first child (in children order) satisfying the actual containment
predicate: the names agree, the invocation start and end times are both
present, `(c.startTime ?? 0) <= invocation.startTime` (so an absent child
start only matches a non-negative invocation start), and `c.endTime` is
absent or at least the invocation end time.  Every strictly earlier child
fails that predicate. -/
theorem c1_amended_match_rule (cellName : String) (perf : PerfJSONRaw)
    (l : List StackTreeNode) (i : Nat) (c : StackTreeNode)
    (h : findMatchingNode (nodeMatches cellName perf) l = some (i, c)) :
    l[i]? = some c ∧
    (c.name = cellName ∧ ∃ s e, perf.start_time = some s ∧
      perf.end_time = some e ∧ c.startTime.getD 0 ≤ s ∧
      (∀ t, c.endTime = some t → e ≤ t)) ∧
    (∀ (j : Nat) (d : StackTreeNode), j < i → l[j]? = some d →
      ¬(d.name = cellName ∧ ∃ s e, perf.start_time = some s ∧
        perf.end_time = some e ∧ d.startTime.getD 0 ≤ s ∧
        (∀ t, d.endTime = some t → e ≤ t))) := by
  obtain ⟨hget, hmatch, hfirst⟩ := findMatchingNode_eq_some _ _ _ _ h
  refine ⟨hget, (nodeMatches_iff cellName perf c).mp hmatch, ?_⟩
  intro j d hj hgetj hd
  have := hfirst j d hj hgetj
  rw [(nodeMatches_iff cellName perf d).mpr hd] at this
  simp at this

/-- Witness for `c1_amended_match_rule` at a concrete sibling list. -/
theorem c1_amended_witness :
    [c1wNodeB, c1wNodeA][1]? = some c1wNodeA ∧
    (c1wNodeA.name = "A" ∧ ∃ s e, c1wPerf.start_time = some s ∧
      c1wPerf.end_time = some e ∧ c1wNodeA.startTime.getD 0 ≤ s ∧
      (∀ t, c1wNodeA.endTime = some t → e ≤ t)) ∧
    (∀ (j : Nat) (d : StackTreeNode), j < 1 →
      [c1wNodeB, c1wNodeA][j]? = some d →
      ¬(d.name = "A" ∧ ∃ s e, c1wPerf.start_time = some s ∧
        c1wPerf.end_time = some e ∧ d.startTime.getD 0 ≤ s ∧
        (∀ t, d.endTime = some t → e ≤ t))) :=
  c1_amended_match_rule "A" c1wPerf [c1wNodeB, c1wNodeA] 1 c1wNodeA (by rfl)

/-- C2.  At the last index of the invocation stack: if a child matching
the containment predicate exists, the first such child has its
`startTime`, `endTime` and `raw` overwritten with the invocation values
(its name and children are untouched, so nothing below this frame is
visited) and no new child is appended (the children list keeps its
length); if no child matches, a new node carrying the frame name, the
invocation timing and `raw` (and an absent `children` field) is appended;
in both cases the recursion stops. -/
theorem c2_leaf_step (tree : StackTreeNode) (call : CallJSONRaw)
    (stack : List StackJSONRaw) (index : Nat) (stackCell : StackJSONRaw)
    (hlast : index + 1 = stack.length) (hcell : stack[index]? = some stackCell) :
    (∀ (i : Nat) (c : StackTreeNode),
      findMatchingNode (nodeMatches (getNameFromCell stackCell) call.perf)
          (tree.children.getD []) = some (i, c) →
      addCallToTree tree call stack index =
        Except.ok (withChildren tree ((tree.children.getD []).set i
          (StackTreeNode.mk c.name call.perf.start_time call.perf.end_time
            (some call) c.children))) ∧
      ((tree.children.getD []).set i
        (StackTreeNode.mk c.name call.perf.start_time call.perf.end_time
          (some call) c.children)).length = (tree.children.getD []).length) ∧
    (findMatchingNode (nodeMatches (getNameFromCell stackCell) call.perf)
        (tree.children.getD []) = none →
      addCallToTree tree call stack index =
        Except.ok (withChildren tree ((tree.children.getD []) ++
          [StackTreeNode.mk (getNameFromCell stackCell) call.perf.start_time
            call.perf.end_time (some call) none]))) := by
  have hdrop : stack.drop index = [stackCell] := drop_eq_singleton hlast hcell
  constructor
  · intro i c hfm
    refine ⟨?_, by simp⟩
    rw [addCallToTree, hdrop]
    exact addCallFrames_leafMatch tree call stackCell i c hfm
  · intro hfm
    rw [addCallToTree, hdrop]
    exact addCallFrames_leafNew tree call stackCell hfm

/-- Witness for `c2_leaf_step`: a matched leaf overwrite and an
unmatched leaf append at concrete inputs. -/
theorem c2_witness :
    (addCallToTree c2wTree c2wCall [mkCell "A"] 0 =
      Except.ok (withChildren c2wTree ((c2wTree.children.getD []).set 0
        (StackTreeNode.mk c2wMatch.name c2wCall.perf.start_time
          c2wCall.perf.end_time (some c2wCall) c2wMatch.children))) ∧
      ((c2wTree.children.getD []).set 0
        (StackTreeNode.mk c2wMatch.name c2wCall.perf.start_time
          c2wCall.perf.end_time (some c2wCall) c2wMatch.children)).length =
        (c2wTree.children.getD []).length) ∧
    addCallToTree c2wTreeNoMatch c2wCall [mkCell "A"] 0 =
      Except.ok (withChildren c2wTreeNoMatch ((c2wTreeNoMatch.children.getD []) ++
        [StackTreeNode.mk (getNameFromCell (mkCell "A")) c2wCall.perf.start_time
          c2wCall.perf.end_time (some c2wCall) none])) :=
  ⟨(c2_leaf_step c2wTree c2wCall [mkCell "A"] 0 (mkCell "A") rfl rfl).1 0
      c2wMatch (by rfl),
   (c2_leaf_step c2wTreeNoMatch c2wCall [mkCell "A"] 0 (mkCell "A") rfl rfl).2
      (by rfl)⟩

/-- C3.  Whenever `createTreeFromCalls` returns a tree, its root is
named `"App"`, carries exactly the record-level interval
(`run.perf.start_time`, `run.perf.end_time`), and has no `raw` —
regardless of the contents of `run.calls`, since folding a call into the
tree never changes the root name, timing or `raw`. -/
theorem c3_root_invariant (run : RecordJSONRaw) (t : StackTreeNode)
    (h : createTreeFromCalls run = Except.ok t) :
    t.name = "App" ∧ t.startTime = some run.perf.start_time ∧
      t.endTime = some run.perf.end_time ∧ t.raw = none := by
  obtain ⟨n, s, e, r⟩ := foldl_calls_fields run.calls _ t
    (by simpa [createTreeFromCalls] using h)
  simp only [StackTreeNode.name_mk, StackTreeNode.startTime_mk,
    StackTreeNode.endTime_mk, StackTreeNode.raw_mk] at n s e r
  exact ⟨n, s, e, r⟩

/-- Witness for `c3_root_invariant` on a concrete two-call run. -/
theorem c3_witness :
    createTreeFromCalls c3run = Except.ok c3tree ∧
      (c3tree.name = "App" ∧ c3tree.startTime = some c3run.perf.start_time ∧
       c3tree.endTime = some c3run.perf.end_time ∧ c3tree.raw = none) :=
  ⟨rfl, c3_root_invariant c3run c3tree rfl⟩

/-- C4, counterexample.  The claim states that an invocation with an
empty stack is a no-op insert and no exception is raised.  On `c4run`
(one empty-stack invocation) the source dereferences
`stack[0].method` with `stack[0] === undefined` and throws a `TypeError`
(modelled as `Except.error`), whereas the same run without that
invocation builds the bare root: the result is an exception, not a
no-op. -/
theorem c4_counterexample :
    createTreeFromCalls c4run = Except.error
      "TypeError: stack cell is undefined" ∧
    createTreeFromCalls c4runWithout =
      Except.ok (StackTreeNode.mk "App" (some 0) (some 100) none (some [])) :=
  ⟨rfl, rfl⟩

/-- C4, amended.  An invocation with an empty stack makes
`createTreeFromCalls` throw a `TypeError` (reading the frame name of an
`undefined` stack cell), provided the calls before it have non-empty
stacks (otherwise they would throw first); the empty-stack record is not
silently dropped. -/
theorem c4_amended_empty_stack_throws (run : RecordJSONRaw)
    (pre post : List CallJSONRaw) (call : CallJSONRaw)
    (hsplit : run.calls = pre ++ call :: post) (hstack : call.stack = [])
    (hpre : ∀ c ∈ pre, c.stack ≠ []) :
    createTreeFromCalls run = Except.error
      "TypeError: stack cell is undefined" := by
  simp only [createTreeFromCalls, hsplit]
  exact foldl_calls_error call post hstack pre hpre _

/-- Witness for `c4_amended_empty_stack_throws` on `c4run`. -/
theorem c4_witness :
    createTreeFromCalls c4run = Except.error
      "TypeError: stack cell is undefined" :=
  c4_amended_empty_stack_throws c4run [] [] ⟨[], ⟨some 1, some 2⟩, "", ""⟩
    rfl rfl (by simp)

/-- C5.  Processing an invocation whose stack has length `k >= 1` into
any tree resolves a node carrying the invocation as `raw` at depth
exactly `k` below the root of the returned tree (the root counting as
depth 0): the witness path has one index per stack frame. -/
theorem c5_depth (tree : StackTreeNode) (call : CallJSONRaw)
    (stack : List StackJSONRaw) (t' : StackTreeNode) (hne : stack ≠ [])
    (h : addCallToTree tree call stack 0 = Except.ok t') :
    ∃ (p : List Nat) (n : StackTreeNode), p.length = stack.length ∧
      nodeAt t' p = some n ∧ n.raw = some call := by
  obtain ⟨t'', h'', p, n, lastCell, -, hplen, hat, -, -, -, hraw⟩ :=
    addCallFrames_resolves call stack tree hne
  have ht : t'' = t' := by
    rw [addCallToTree, List.drop_zero, h''] at h
    exact (Except.ok.injEq _ _).mp h
  subst ht
  exact ⟨p, n, hplen, hat, hraw⟩

/-- Witness for `c5_depth`: a stack of length two resolves its `raw` at
depth two. -/
theorem c5_witness :
    ∃ (p : List Nat) (n : StackTreeNode), p.length = c5call.stack.length ∧
      nodeAt (StackTreeNode.mk "App" (some 0) (some 100) none (some
        [StackTreeNode.mk "A" none none none (some
          [StackTreeNode.mk "B" (some 2) (some 8) (some c5call) none])])) p
        = some n ∧ n.raw = some c5call :=
  c5_depth c5tree c5call c5call.stack _ (by simp [c5call]) rfl

/-- C6.  `createTreeFromCalls` is deterministic: two runs on the same
record produce structurally identical trees — the same tree, hence the
same subtree (same names, timings, `raw` and child order) at every
path. -/
theorem c6_deterministic (run : RecordJSONRaw) (t1 t2 : StackTreeNode)
    (h1 : createTreeFromCalls run = Except.ok t1)
    (h2 : createTreeFromCalls run = Except.ok t2) :
    t1 = t2 ∧ ∀ p : List Nat, nodeAt t1 p = nodeAt t2 p := by
  rw [h1, Except.ok.injEq] at h2
  subst h2
  exact ⟨rfl, fun p => rfl⟩

/-- Witness for `c6_deterministic` on a concrete run. -/
theorem c6_witness :
    c3tree = c3tree ∧ ∀ p : List Nat, nodeAt c3tree p = nodeAt c3tree p :=
  c6_deterministic c3run c3tree c3tree rfl rfl

/-- C7.  Missing timing fields never raise: an invocation with an
absent `start_time` or `end_time` (and a non-empty stack) is processed
without error, and the node it resolves carries exactly the absent
optional values as its `startTime` / `endTime` (the unclosed state);
moreover `createTreeFromCalls` succeeds on every run whose calls all
have non-empty stacks, whatever their timing fields.  (Empty stacks
throw independently of timing — that is C4.) -/
theorem c7_missing_timing :
    (∀ (tree : StackTreeNode) (call : CallJSONRaw) (stack : List StackJSONRaw),
      stack ≠ [] →
      (call.perf.start_time = none ∨ call.perf.end_time = none) →
      ∃ (t' : StackTreeNode) (p : List Nat) (n : StackTreeNode),
        addCallToTree tree call stack 0 = Except.ok t' ∧
        p.length = stack.length ∧ nodeAt t' p = some n ∧
        n.startTime = call.perf.start_time ∧ n.endTime = call.perf.end_time ∧
        n.raw = some call) ∧
    (∀ run : RecordJSONRaw, (∀ c ∈ run.calls, c.stack ≠ []) →
      ∃ t, createTreeFromCalls run = Except.ok t) := by
  constructor
  · intro tree call stack hne _
    obtain ⟨t', h', p, n, lastCell, -, hplen, hat, -, hst, het, hraw⟩ :=
      addCallFrames_resolves call stack tree hne
    exact ⟨t', p, n, by rw [addCallToTree, List.drop_zero]; exact h',
      hplen, hat, hst, het, hraw⟩
  · intro run hne
    obtain ⟨t, h⟩ := foldl_calls_ok run.calls hne _
    exact ⟨t, by simpa [createTreeFromCalls] using h⟩

/-- Witness for `c7_missing_timing`: an invocation with an absent
`start_time`, and a full run. -/
theorem c7_witness :
    (∃ (t' : StackTreeNode) (p : List Nat) (n : StackTreeNode),
      addCallToTree c7tree c7call [mkCell "A"] 0 = Except.ok t' ∧
      p.length = 1 ∧ nodeAt t' p = some n ∧
      n.startTime = c7call.perf.start_time ∧ n.endTime = c7call.perf.end_time ∧
      n.raw = some c7call) ∧
    (∃ t, createTreeFromCalls c3run = Except.ok t) :=
  ⟨c7_missing_timing.1 c7tree c7call [mkCell "A"] (by simp) (Or.inl rfl),
   c7_missing_timing.2 c3run (by decide)⟩

theorem foldl_calls_children (calls : List CallJSONRaw) :
    ∀ (t t' : StackTreeNode),
      calls.foldlM (fun t call => addCallToTree t call call.stack 0) t
          = Except.ok t' →
      (∃ cs, t.children = some cs) → ∃ cs, t'.children = some cs := by
  induction calls with
  | nil =>
    intro t t' h hc
    simp only [List.foldlM_nil, pure, Except.pure, Except.ok.injEq] at h
    subst h
    exact hc
  | cons call calls ih =>
    intro t t' h _
    rw [List.foldlM_cons] at h
    obtain ⟨t1, h1, h2⟩ := exceptBind_eq_ok _ _ _ h
    obtain ⟨-, -, -, -, hc1⟩ :=
      addCallFrames_fields t call (call.stack.drop 0) t1 h1
    exact ih t1 t' h2 hc1

/-- C8, amended.  The root node (and every returned tree) carries a
present `children` list from creation, even when no child is ever added;
processing a call either rewrites one existing position in place or
appends a single new child at the tail — never inserting or reordering,
so a `children` sequence lists children in the order they were added —
and a node appended at the last stack index is created with an absent
`children` field (until a later invocation descends into it). -/
theorem c8_amended_children_order :
    (∀ (run : RecordJSONRaw) (t : StackTreeNode),
      createTreeFromCalls run = Except.ok t → ∃ cs, t.children = some cs) ∧
    (∀ (tree : StackTreeNode) (call : CallJSONRaw) (frames : List StackJSONRaw)
        (t' : StackTreeNode), addCallFrames tree call frames = Except.ok t' →
      ∃ cs', t'.children = some cs' ∧
        ((∃ (i : Nat) (x : StackTreeNode), i < (tree.children.getD []).length ∧
            cs' = (tree.children.getD []).set i x) ∨
          (∃ x : StackTreeNode, cs' = (tree.children.getD []) ++ [x]))) ∧
    (∀ (tree : StackTreeNode) (call : CallJSONRaw) (stackCell : StackJSONRaw),
      findMatchingNode (nodeMatches (getNameFromCell stackCell) call.perf)
          (tree.children.getD []) = none →
      addCallFrames tree call [stackCell] =
        Except.ok (withChildren tree ((tree.children.getD []) ++
          [StackTreeNode.mk (getNameFromCell stackCell) call.perf.start_time
            call.perf.end_time (some call) none]))) := by
  refine ⟨?_, ?_, ?_⟩
  · intro run t h
    exact foldl_calls_children run.calls
      (StackTreeNode.mk "App" (some run.perf.start_time)
        (some run.perf.end_time) none (some [])) t
      (by simpa [createTreeFromCalls] using h) ⟨[], rfl⟩
  · intro tree call frames t' h
    cases frames with
    | nil => simp [addCallFrames] at h
    | cons stackCell rest =>
      cases hfm : findMatchingNode
          (nodeMatches (getNameFromCell stackCell) call.perf)
          (tree.children.getD []) with
      | some ic =>
        obtain ⟨i, c⟩ := ic
        obtain ⟨hget, -, -⟩ := findMatchingNode_eq_some _ _ _ _ hfm
        have hi : i < (tree.children.getD []).length :=
          lt_length_of_getElem?_some hget
        cases rest with
        | nil =>
          rw [addCallFrames_leafMatch tree call stackCell i c hfm,
            Except.ok.injEq] at h
          subst h
          exact ⟨_, by simp, Or.inl ⟨i, StackTreeNode.mk c.name
            call.perf.start_time call.perf.end_time (some call) c.children,
            hi, rfl⟩⟩
        | cons r1 rs =>
          rw [addCallFrames_descendMatch tree call stackCell r1 rs i c hfm,
            exceptMap_eq_ok] at h
          obtain ⟨c2, -, ht'⟩ := h
          subst ht'
          exact ⟨_, by simp, Or.inl ⟨i, c2, hi, rfl⟩⟩
      | none =>
        cases rest with
        | nil =>
          rw [addCallFrames_leafNew tree call stackCell hfm,
            Except.ok.injEq] at h
          subst h
          exact ⟨_, by simp, Or.inr ⟨StackTreeNode.mk
            (getNameFromCell stackCell) call.perf.start_time
            call.perf.end_time (some call) none, rfl⟩⟩
        | cons r1 rs =>
          rw [addCallFrames_descendNew tree call stackCell r1 rs hfm,
            exceptMap_eq_ok] at h
          obtain ⟨c2, -, ht'⟩ := h
          subst ht'
          exact ⟨_, by simp, Or.inr ⟨c2, rfl⟩⟩
  · intro tree call stackCell hfm
    exact addCallFrames_leafNew tree call stackCell hfm

/-- C8, counterexample.  The claim states the `children` field is
absent until the first child is added.  The root of a run with no calls
has never had a child added, yet `createTreeFromCalls` creates it with a
present, empty `children` array. -/
theorem c8_counterexample :
    createTreeFromCalls c8run =
      Except.ok (StackTreeNode.mk "App" (some 3) (some 9) none (some [])) ∧
    (StackTreeNode.mk "App" (some 3) (some 9) none (some [])).children ≠ none :=
  ⟨rfl, by simp⟩

/-- Witness for `c8_amended_children_order` at concrete inputs. -/
theorem c8_witness :
    (∃ cs, (StackTreeNode.mk "App" (some 3) (some 9) none
      (some [] : Option (List StackTreeNode))).children = some cs) ∧
    (∃ cs', (withChildren c8tree ((c8tree.children.getD []) ++
        [StackTreeNode.mk "A" (some 3) (some 7) (some c2wCall) none])).children
          = some cs' ∧
      ((∃ (i : Nat) (x : StackTreeNode), i < (c8tree.children.getD []).length ∧
          cs' = (c8tree.children.getD []).set i x) ∨
        (∃ x : StackTreeNode, cs' = (c8tree.children.getD []) ++ [x]))) ∧
    addCallFrames c8tree c2wCall [mkCell "A"] =
      Except.ok (withChildren c8tree ((c8tree.children.getD []) ++
        [StackTreeNode.mk (getNameFromCell (mkCell "A"))
          c2wCall.perf.start_time c2wCall.perf.end_time (some c2wCall) none])) :=
  ⟨c8_amended_children_order.1 c8run
      (StackTreeNode.mk "App" (some 3) (some 9) none (some [])) rfl,
   c8_amended_children_order.2.1 c8tree c2wCall [mkCell "A"] _ rfl,
   c8_amended_children_order.2.2 c8tree c2wCall (mkCell "A") rfl⟩

/-- C10.  Tree growth is monotone: processing one invocation adds at
most `stack.length` nodes in total (at most one per stack depth), every
node present before is still present at the same path with the same
name, and the `startTime` / `endTime` / `raw` of at most one existing
node (the matched node at the last stack index) are changed. -/
theorem c10_monotone_growth (tree : StackTreeNode) (call : CallJSONRaw)
    (stack : List StackJSONRaw) (t' : StackTreeNode)
    (h : addCallToTree tree call stack 0 = Except.ok t') :
    countNodes t' ≤ countNodes tree + stack.length ∧
    ∃ p₀ : List Nat, ∀ (p : List Nat) (m : StackTreeNode),
      nodeAt tree p = some m →
      ∃ m', nodeAt t' p = some m' ∧ m'.name = m.name ∧
        (p ≠ p₀ → m'.startTime = m.startTime ∧ m'.endTime = m.endTime ∧
          m'.raw = m.raw) := by
  rw [addCallToTree, List.drop_zero] at h
  exact ⟨addCallFrames_count call stack tree t' h,
    addCallFrames_monotone call stack tree t' h⟩

/-- Witness for `c10_monotone_growth` at a concrete insertion. -/
theorem c10_witness :
    countNodes c10res ≤ countNodes c2wTree + 1 ∧
    ∃ p₀ : List Nat, ∀ (p : List Nat) (m : StackTreeNode),
      nodeAt c2wTree p = some m →
      ∃ m', nodeAt c10res p = some m' ∧ m'.name = m.name ∧
        (p ≠ p₀ → m'.startTime = m.startTime ∧ m'.endTime = m.endTime ∧
          m'.raw = m.raw) :=
  c10_monotone_growth c2wTree c2wCall [mkCell "A"] c10res rfl
